import Mathlib

/-!
Verification development for the De-cipher codec layer.

The Python modules `src/scripts/aes.py`, `src/scripts/des.py`,
`src/scripts/vigenere.py` and `src/scripts/playfair.py` are shallowly
embedded below.  Characters and bytes are modelled as `Nat` code points /
byte values, file contents as `List Nat`, and a text file as a
`List (List Nat)` of its lines (without trailing newline characters).
Fallible operations return `Except`/`Option`; an `Except.error` result
means the function raised before writing its output file, and an
`Except.ok`/`some` value is the content written to the output file.
The external AES/DES block primitives (from `Crypto.Cipher`) are not part
of the repository; functions taking them are parameterised by the
primitive (`enc`/`dec`), exactly as the spec treats them ("an external
primitive the core calls").
-/

/-- Python `str.upper` restricted to ASCII codes: a..z map to A..Z,
everything else is unchanged (the repository's tables and boards only
involve ASCII characters). -/
def pyUpper (c : Nat) : Nat := if 97 ≤ c ∧ c ≤ 122 then c - 32 else c

/-- ASCII whitespace, as stripped by Python `str.strip` and ignored by
`bytes.fromhex`. -/
def isSpaceCh (c : Nat) : Bool := c == 32 || c == 9 || c == 10 || c == 13 || c == 11 || c == 12

/-- Python `str.strip`: drop leading and trailing whitespace. -/
def pyStrip (s : List Nat) : List Nat :=
  ((s.dropWhile isSpaceCh).reverse.dropWhile isSpaceCh).reverse

/-- A line is kept by the loaders when `line.strip()` is non-empty. -/
def nonBlankLine (l : List Nat) : Bool := l.any (fun c => !(isSpaceCh c))

/-- Hexadecimal digit test (0-9, a-f, A-F), as accepted by `bytes.fromhex`. -/
def isHexDigit (c : Nat) : Bool :=
  (48 ≤ c && c ≤ 57) || (97 ≤ c && c ≤ 102) || (65 ≤ c && c ≤ 70)

/-- Value of a hexadecimal digit. -/
def hexVal (c : Nat) : Nat :=
  if c ≤ 57 then c - 48 else if c ≤ 70 then c - 55 else c - 87

/-- Pair up hex digits into byte values; fails on an odd number of digits,
like `bytes.fromhex`. -/
def hexPairsToBytes : List Nat → Option (List Nat)
  | [] => some []
  | _ :: [] => none
  | a :: b :: rest => (hexPairsToBytes rest).map (fun bs => (16 * hexVal a + hexVal b) :: bs)

/-- `bytes.fromhex`: ASCII whitespace is ignored, all remaining characters
must be hex digits and come in pairs. -/
def bytesFromHex (content : List Nat) : Option (List Nat) :=
  let digits := content.filter (fun c => !(isSpaceCh c))
  if digits.all isHexDigit then hexPairsToBytes digits else none

/-- UTF-8 encoding of one code point (the fallback `content.encode("utf-8")`). -/
def utf8EncodeChar (c : Nat) : List Nat :=
  if c < 128 then [c]
  else if c < 2048 then [192 + c / 64, 128 + c % 64]
  else if c < 65536 then [224 + c / 4096, 128 + (c / 64) % 64, 128 + c % 64]
  else [240 + c / 262144, 128 + (c / 4096) % 64, 128 + (c / 64) % 64, 128 + c % 64]

/-- UTF-8 encoding of a string of code points. -/
def utf8Encode (s : List Nat) : List Nat := (s.map utf8EncodeChar).flatten

/-- Key decoding shared by `aes._read_key_file` and `des._read_key_file`:
strip the content, try hex decoding first, fall back to UTF-8 bytes. -/
def decodeKey (content : List Nat) : List Nat :=
  let t := pyStrip content
  match bytesFromHex t with
  | some bs => bs
  | none => utf8Encode t

/-- Errors raised on the block-cipher file paths. `indexError` models the
untyped `IndexError` raised by `data[-1]` on empty data; `badIVLength`
models the ValueError the external CBC primitive's constructor
(`AES.new(key, MODE_CBC, iv=iv)`) raises when the IV read from the input
file is shorter than the 16-byte block size. -/
inductive CipherError
  | invalidKeyLength
  | invalidPadding
  | indexError
  | badIVLength
deriving DecidableEq

/-- `aes._read_key_file` (minus the file-existence check, which concerns the
path, not the content): decoded key must be 16, 24 or 32 bytes. -/
def readKeyFileAes (content : List Nat) : Except CipherError (List Nat) :=
  let k := decodeKey content
  if k.length = 16 ∨ k.length = 24 ∨ k.length = 32 then .ok k
  else .error .invalidKeyLength

/-- `des._read_key_file`: decoded key must be exactly 8 bytes. -/
def readKeyFileDes (content : List Nat) : Except CipherError (List Nat) :=
  let k := decodeKey content
  if k.length = 8 then .ok k else .error .invalidKeyLength

/-- PKCS#7-style padding as written in both `encrypt_file` functions:
`pad_len = block_size - (len(data) % block_size)`, then `pad_len` copies of
the byte `pad_len` are appended. -/
def pkcs7Pad (blockSize : Nat) (data : List Nat) : List Nat :=
  let padLen := blockSize - data.length % blockSize
  data ++ List.replicate padLen padLen

/-- The padding strip at the end of both `decrypt_file` functions:
`pad_len = data[-1]` (IndexError on empty data), reject `pad_len` outside
`[1, block_size]`, then drop the last `pad_len` bytes (`data[:-pad_len]`). -/
def stripPadding (blockSize : Nat) (data : List Nat) : Except CipherError (List Nat) :=
  match data.getLast? with
  | none => .error .indexError
  | some padLen =>
      if padLen < 1 ∨ padLen > blockSize then .error .invalidPadding
      else .ok (data.take (data.length - padLen))

/-- `aes.encrypt_file`: validate the key, pad the plaintext, encrypt with the
CBC primitive (keyed by the key bytes and the fresh IV) and write
`IV ++ ciphertext`.  `enc key iv data` is the external CBC encryption. -/
def aesEncryptFile (enc : List Nat → List Nat → List Nat → List Nat) (iv : List Nat)
    (keyContent : List Nat) (input : List Nat) : Except CipherError (List Nat) :=
  match readKeyFileAes keyContent with
  | .error e => .error e
  | .ok k => .ok (iv ++ enc k iv (pkcs7Pad 16 input))

/-- `aes.decrypt_file`: validate the key, split the file into the IV read by
`f_in.read(16)` and the ciphertext, build the CBC primitive (whose
constructor rejects an IV that is not exactly 16 bytes — the file may be
shorter), decrypt and strip the padding.  `dec key iv ct` is the external
CBC decryption, only ever consulted with a full 16-byte IV. -/
def aesDecryptFile (dec : List Nat → List Nat → List Nat → List Nat)
    (keyContent : List Nat) (file : List Nat) : Except CipherError (List Nat) :=
  match readKeyFileAes keyContent with
  | .error e => .error e
  | .ok k =>
      if (file.take 16).length ≠ 16 then .error .badIVLength
      else stripPadding 16 (dec k (file.take 16) (file.drop 16))

/-- `des.encrypt_file`: validate the key, pad, encrypt with the ECB primitive
and write the raw ciphertext (no IV). -/
def desEncryptFile (enc : List Nat → List Nat → List Nat)
    (keyContent : List Nat) (input : List Nat) : Except CipherError (List Nat) :=
  match readKeyFileDes keyContent with
  | .error e => .error e
  | .ok k => .ok (enc k (pkcs7Pad 8 input))

/-- `des.decrypt_file`: validate the key, decrypt the whole file with the ECB
primitive and strip the padding. -/
def desDecryptFile (dec : List Nat → List Nat → List Nat)
    (keyContent : List Nat) (file : List Nat) : Except CipherError (List Nat) :=
  match readKeyFileDes keyContent with
  | .error e => .error e
  | .ok k => stripPadding 8 (dec k file)

theorem pkcs7Pad_length (bs : Nat) (m : List Nat) :
    (pkcs7Pad bs m).length = m.length + (bs - m.length % bs) := by
  simp [pkcs7Pad]

theorem pkcs7Pad_length_mod (bs : Nat) (hbs : 0 < bs) (m : List Nat) :
    (pkcs7Pad bs m).length % bs = 0 := by
  rw [pkcs7Pad_length bs]
  have h := Nat.mod_lt m.length hbs
  have h2 := Nat.div_add_mod m.length bs
  have h3 : m.length + (bs - m.length % bs) = bs * (m.length / bs) + bs := by omega
  have h4 : bs * (m.length / bs) + bs = bs * (m.length / bs + 1) := by ring
  rw [h3, h4, Nat.mul_mod_right]

theorem stripPadding_pkcs7Pad (bs : Nat) (hbs : 0 < bs) (m : List Nat) :
    stripPadding bs (pkcs7Pad bs m) = .ok m := by
  have hlt : m.length % bs < bs := Nat.mod_lt m.length hbs
  have hpos : 0 < bs - m.length % bs := by omega
  unfold stripPadding pkcs7Pad
  have hne : (List.replicate (bs - m.length % bs) (bs - m.length % bs) : List Nat) ≠ [] := by
    simp [List.replicate_eq_nil_iff]
    omega
  rw [List.getLast?_append]
  rw [List.getLast?_eq_getLast _ hne]
  simp only [List.getLast_replicate, Option.or_some]
  have hcond : ¬ (bs - m.length % bs < 1 ∨ bs - m.length % bs > bs) := by omega
  rw [if_neg hcond]
  congr 1
  have hlen : (m ++ List.replicate (bs - m.length % bs) (bs - m.length % bs)).length
      - (bs - m.length % bs) = m.length := by
    simp
  rw [hlen, List.take_left']
  rfl

theorem aesDecrypt_of_encrypt
    (encA decA : List Nat → List Nat → List Nat → List Nat)
    (keyA : List Nat) (kA iv m : List Nat)
    (hkA : readKeyFileAes keyA = .ok kA)
    (hiv : iv.length = 16)
    (hA : ∀ x, decA kA iv (encA kA iv x) = x) :
    aesDecryptFile decA keyA (iv ++ encA kA iv (pkcs7Pad 16 m)) = .ok m := by
  unfold aesDecryptFile
  rw [hkA]
  have ht : (iv ++ encA kA iv (pkcs7Pad 16 m)).take 16 = iv := by
    rw [← hiv, List.take_left]
  have hd : (iv ++ encA kA iv (pkcs7Pad 16 m)).drop 16 = encA kA iv (pkcs7Pad 16 m) := by
    rw [← hiv, List.drop_left]
  show (if ((iv ++ encA kA iv (pkcs7Pad 16 m)).take 16).length ≠ 16
        then Except.error CipherError.badIVLength
        else stripPadding 16 (decA kA ((iv ++ encA kA iv (pkcs7Pad 16 m)).take 16)
          ((iv ++ encA kA iv (pkcs7Pad 16 m)).drop 16))) = Except.ok m
  rw [ht, hd, if_neg (fun hne => hne hiv), hA]
  exact stripPadding_pkcs7Pad 16 (by norm_num) m

/-- C1: decrypting the output of encryption with the same key recovers the
plaintext exactly, for every byte string (empty and non-block-aligned
included), for both the CBC codec (aes.py) and the ECB codec (des.py),
assuming the external block primitive's decryption inverts its encryption. -/
theorem c1_block_roundtrip
    (encA decA : List Nat → List Nat → List Nat → List Nat)
    (encD decD : List Nat → List Nat → List Nat)
    (keyA keyD : List Nat) (kA kD iv m : List Nat)
    (hkA : readKeyFileAes keyA = .ok kA)
    (hkD : readKeyFileDes keyD = .ok kD)
    (hiv : iv.length = 16)
    (hA : ∀ x, decA kA iv (encA kA iv x) = x)
    (hD : ∀ x, decD kD (encD kD x) = x) :
    (aesEncryptFile encA iv keyA m).bind (aesDecryptFile decA keyA) = .ok m ∧
    (desEncryptFile encD keyD m).bind (desDecryptFile decD keyD) = .ok m := by
  constructor
  · unfold aesEncryptFile
    rw [hkA]
    show aesDecryptFile decA keyA (iv ++ encA kA iv (pkcs7Pad 16 m)) = .ok m
    exact aesDecrypt_of_encrypt encA decA keyA kA iv m hkA hiv hA
  · unfold desEncryptFile
    rw [hkD]
    show desDecryptFile decD keyD (encD kD (pkcs7Pad 8 m)) = .ok m
    unfold desDecryptFile
    rw [hkD]
    simp only [hD]
    exact stripPadding_pkcs7Pad 8 (by norm_num) m

theorem c1_block_roundtrip_witness :
    (aesEncryptFile (fun _ _ x => x) (List.replicate 16 0) (List.replicate 16 122) [1, 2, 3]).bind
      (aesDecryptFile (fun _ _ x => x) (List.replicate 16 122)) = .ok [1, 2, 3] ∧
    (desEncryptFile (fun _ x => x) (List.replicate 8 122) [1, 2, 3]).bind
      (desDecryptFile (fun _ x => x) (List.replicate 8 122)) = .ok [1, 2, 3] :=
  c1_block_roundtrip (fun _ _ x => x) (fun _ _ x => x) (fun _ x => x) (fun _ x => x)
    (List.replicate 16 122) (List.replicate 8 122)
    (List.replicate 16 122) (List.replicate 8 122) (List.replicate 16 0) [1, 2, 3]
    rfl rfl (by decide) (fun x => rfl) (fun x => rfl)

/-- C7: the CBC output file is exactly the 16-byte IV followed by a
ciphertext whose length is a multiple of 16; a 10-byte plaintext yields a
32-byte output that decrypts back to the 10 original bytes; the ECB output
is the raw ciphertext (no IV) with length a multiple of 8. -/
theorem c7_framing_and_length
    (encA decA : List Nat → List Nat → List Nat → List Nat)
    (encD : List Nat → List Nat → List Nat)
    (keyA keyD : List Nat) (kA kD iv m : List Nat)
    (hkA : readKeyFileAes keyA = .ok kA)
    (hkD : readKeyFileDes keyD = .ok kD)
    (hiv : iv.length = 16)
    (hlenA : ∀ x, (encA kA iv x).length = x.length)
    (hlenD : ∀ x, (encD kD x).length = x.length)
    (hA : ∀ x, decA kA iv (encA kA iv x) = x) :
    aesEncryptFile encA iv keyA m = .ok (iv ++ encA kA iv (pkcs7Pad 16 m)) ∧
    (encA kA iv (pkcs7Pad 16 m)).length % 16 = 0 ∧
    desEncryptFile encD keyD m = .ok (encD kD (pkcs7Pad 8 m)) ∧
    (encD kD (pkcs7Pad 8 m)).length % 8 = 0 ∧
    (m.length = 10 →
      (iv ++ encA kA iv (pkcs7Pad 16 m)).length = 32 ∧
      aesDecryptFile decA keyA (iv ++ encA kA iv (pkcs7Pad 16 m)) = .ok m) := by
  refine ⟨?_, ?_, ?_, ?_, ?_⟩
  · unfold aesEncryptFile; rw [hkA]
  · rw [hlenA]; exact pkcs7Pad_length_mod 16 (by norm_num) m
  · unfold desEncryptFile; rw [hkD]
  · rw [hlenD]; exact pkcs7Pad_length_mod 8 (by norm_num) m
  · intro hm
    constructor
    · rw [List.length_append, hiv, hlenA, pkcs7Pad_length, hm]
    · exact aesDecrypt_of_encrypt encA decA keyA kA iv m hkA hiv hA

theorem c7_framing_and_length_witness :
    aesEncryptFile (fun _ _ x => x) (List.replicate 16 0) (List.replicate 16 122)
        [0, 1, 2, 3, 4, 5, 6, 7, 8, 9]
      = .ok (List.replicate 16 0 ++ pkcs7Pad 16 [0, 1, 2, 3, 4, 5, 6, 7, 8, 9]) ∧
    (pkcs7Pad 16 [0, 1, 2, 3, 4, 5, 6, 7, 8, 9]).length % 16 = 0 ∧
    desEncryptFile (fun _ x => x) (List.replicate 8 122) [0, 1, 2, 3, 4, 5, 6, 7, 8, 9]
      = .ok (pkcs7Pad 8 [0, 1, 2, 3, 4, 5, 6, 7, 8, 9]) ∧
    (pkcs7Pad 8 [0, 1, 2, 3, 4, 5, 6, 7, 8, 9]).length % 8 = 0 ∧
    (List.replicate 16 0 ++ pkcs7Pad 16 [0, 1, 2, 3, 4, 5, 6, 7, 8, 9]).length = 32 ∧
    aesDecryptFile (fun _ _ x => x) (List.replicate 16 122)
        (List.replicate 16 0 ++ pkcs7Pad 16 [0, 1, 2, 3, 4, 5, 6, 7, 8, 9])
      = .ok [0, 1, 2, 3, 4, 5, 6, 7, 8, 9] := by
  have h := c7_framing_and_length (fun _ _ x => x) (fun _ _ x => x) (fun _ x => x)
    (List.replicate 16 122) (List.replicate 8 122)
    (List.replicate 16 122) (List.replicate 8 122) (List.replicate 16 0)
    [0, 1, 2, 3, 4, 5, 6, 7, 8, 9]
    rfl rfl (by decide) (fun x => rfl) (fun x => rfl) (fun x => rfl)
  exact ⟨h.1, h.2.1, h.2.2.1, h.2.2.2.1, (h.2.2.2.2 rfl).1, (h.2.2.2.2 rfl).2⟩

/-- C8: when the decoded key bytes have an invalid length (not 16/24/32 for
the AES codec, not exactly 8 for the DES codec), both encrypt_file and
decrypt_file return the invalid-key-length error; since the output content
is only produced in the success branch, no output file is created. -/
theorem c8_invalid_key_fails_before_output
    (encA decA : List Nat → List Nat → List Nat → List Nat)
    (encD decD : List Nat → List Nat → List Nat)
    (keyA keyD : List Nat) (iv input fileA fileD : List Nat)
    (hA : ¬ ((decodeKey keyA).length = 16 ∨ (decodeKey keyA).length = 24 ∨
             (decodeKey keyA).length = 32))
    (hD : (decodeKey keyD).length ≠ 8) :
    aesEncryptFile encA iv keyA input = .error .invalidKeyLength ∧
    aesDecryptFile decA keyA fileA = .error .invalidKeyLength ∧
    desEncryptFile encD keyD input = .error .invalidKeyLength ∧
    desDecryptFile decD keyD fileD = .error .invalidKeyLength := by
  have hra : readKeyFileAes keyA = .error .invalidKeyLength := by
    unfold readKeyFileAes
    rw [if_neg hA]
  have hrd : readKeyFileDes keyD = .error .invalidKeyLength := by
    unfold readKeyFileDes
    rw [if_neg hD]
  refine ⟨?_, ?_, ?_, ?_⟩
  · unfold aesEncryptFile; rw [hra]
  · unfold aesDecryptFile; rw [hra]
  · unfold desEncryptFile; rw [hrd]
  · unfold desDecryptFile; rw [hrd]

theorem c8_invalid_key_fails_before_output_witness :
    aesEncryptFile (fun _ _ x => x) [] (List.replicate 15 122) [1]
      = .error .invalidKeyLength ∧
    aesDecryptFile (fun _ _ x => x) (List.replicate 15 122) [2]
      = .error .invalidKeyLength ∧
    desEncryptFile (fun _ x => x) (List.replicate 3 122) [1]
      = .error .invalidKeyLength ∧
    desDecryptFile (fun _ x => x) (List.replicate 3 122) [2]
      = .error .invalidKeyLength :=
  c8_invalid_key_fails_before_output (fun _ _ x => x) (fun _ _ x => x)
    (fun _ x => x) (fun _ x => x) (List.replicate 15 122) (List.replicate 3 122)
    [] [1] [2] [2] (by decide) (by decide)

/-- C10 counterexample: a CBC input file shorter than 16 bytes (here 3
bytes) makes decrypt_file fail with the primitive constructor's IV-length
error, not the out-of-range index error the claim asserts for every file
of at most 16 bytes. -/
theorem c10_short_file_error_counterexample :
    aesDecryptFile (fun _ _ x => x) (List.replicate 16 122) [1, 2, 3]
      = .error .badIVLength ∧
    (Except.error CipherError.badIVLength : Except CipherError (List Nat))
      ≠ .error .indexError :=
  ⟨rfl, by simp⟩

/-- C10 (amended): the padding-strip step reads the last byte of the
decrypted data, so an empty ciphertext portion makes decrypt_file fail
with the out-of-range index error rather than the typed invalid-padding
error — for the ECB codec on an empty input file, and for the CBC codec on
an input file of exactly 16 bytes (a full IV followed by no ciphertext);
a CBC input file shorter than 16 bytes fails earlier, in the primitive's
constructor, with its IV-length error. -/
theorem c10_empty_ciphertext_errors_amended
    (decA : List Nat → List Nat → List Nat → List Nat)
    (decD : List Nat → List Nat → List Nat)
    (keyA keyD : List Nat) (kA kD file : List Nat)
    (hkA : readKeyFileAes keyA = .ok kA)
    (hkD : readKeyFileDes keyD = .ok kD)
    (hdecA : ∀ iv, iv.length = 16 → (decA kA iv []).length = 0)
    (hdecD : (decD kD []).length = 0) :
    (file.length = 16 → aesDecryptFile decA keyA file = .error .indexError) ∧
    (file.length < 16 → aesDecryptFile decA keyA file = .error .badIVLength) ∧
    desDecryptFile decD keyD [] = .error .indexError := by
  refine ⟨?_, ?_, ?_⟩
  · intro h16
    unfold aesDecryptFile
    rw [hkA]
    show (if (file.take 16).length ≠ 16 then Except.error CipherError.badIVLength
          else stripPadding 16 (decA kA (file.take 16) (file.drop 16)))
        = Except.error CipherError.indexError
    have htlen : (file.take 16).length = 16 := by
      simp only [List.length_take]
      omega
    have hdrop : file.drop 16 = [] := List.drop_eq_nil_of_le (by omega)
    have hnil : decA kA (file.take 16) [] = [] :=
      List.eq_nil_of_length_eq_zero (hdecA _ htlen)
    rw [if_neg (fun hne => hne htlen), hdrop, hnil]
    rfl
  · intro hlt
    unfold aesDecryptFile
    rw [hkA]
    show (if (file.take 16).length ≠ 16 then Except.error CipherError.badIVLength
          else stripPadding 16 (decA kA (file.take 16) (file.drop 16)))
        = Except.error CipherError.badIVLength
    have htlen : (file.take 16).length ≠ 16 := by
      simp only [List.length_take]
      omega
    rw [if_pos htlen]
  · unfold desDecryptFile
    rw [hkD]
    show stripPadding 8 (decD kD []) = Except.error CipherError.indexError
    have hnil : decD kD [] = [] := List.eq_nil_of_length_eq_zero hdecD
    rw [hnil]
    rfl

theorem c10_empty_ciphertext_errors_amended_witness :
    aesDecryptFile (fun _ _ x => x) (List.replicate 16 122) (List.replicate 16 7)
      = .error .indexError ∧
    aesDecryptFile (fun _ _ x => x) (List.replicate 16 122) [1, 2, 3]
      = .error .badIVLength ∧
    desDecryptFile (fun _ x => x) (List.replicate 8 122) [] = .error .indexError :=
  ⟨(c10_empty_ciphertext_errors_amended (fun _ _ x => x) (fun _ x => x)
      (List.replicate 16 122) (List.replicate 8 122) (List.replicate 16 122)
      (List.replicate 8 122) (List.replicate 16 7) rfl rfl
      (fun _ _ => rfl) rfl).1 rfl,
   (c10_empty_ciphertext_errors_amended (fun _ _ x => x) (fun _ x => x)
      (List.replicate 16 122) (List.replicate 8 122) (List.replicate 16 122)
      (List.replicate 8 122) [1, 2, 3] rfl rfl (fun _ _ => rfl) rfl).2.1 (by decide),
   (c10_empty_ciphertext_errors_amended (fun _ _ x => x) (fun _ x => x)
      (List.replicate 16 122) (List.replicate 8 122) (List.replicate 16 122)
      (List.replicate 8 122) [] rfl rfl (fun _ _ => rfl) rfl).2.2⟩


/-- Errors raised by the Vigenère loaders (`read_table_from_file`,
`read_key_from_file`), one constructor per distinct ValueError message. -/
inductive VigError
  | emptyTable
  | notSquareRows
  | notSquareNM
  | nonVisible
  | rowSetMismatch
  | dupFirstRow
  | emptyKey
deriving DecidableEq

/-- Index of the first occurrence of `x` in `l` (Python `str.find`, and the
index assigned by the `{c: i for i, c in enumerate(charset)}` dictionary,
which coincides with the first index on duplicate-free charsets). -/
def findIdxCh (l : List Nat) (x : Nat) : Option Nat :=
  match l with
  | [] => none
  | c :: rest => if c = x then some 0 else (findIdxCh rest x).map (· + 1)

theorem findIdxCh_eq_none_iff (l : List Nat) (x : Nat) : findIdxCh l x = none ↔ x ∉ l := by
  induction l with
  | nil => simp [findIdxCh]
  | cons c rest ih =>
    by_cases h : c = x
    · subst h
      simp [findIdxCh]
    · simp only [findIdxCh, if_neg h, Option.map_eq_none', ih, List.mem_cons]
      constructor
      · intro hn hor
        rcases hor with h1 | h2
        · exact h h1.symm
        · exact hn h2
      · intro hn h2
        exact hn (Or.inr h2)

theorem findIdxCh_lt_length {l : List Nat} {x : Nat} {j : Nat}
    (h : findIdxCh l x = some j) : j < l.length := by
  induction l generalizing j with
  | nil => simp [findIdxCh] at h
  | cons c rest ih =>
    by_cases hc : c = x
    · simp [findIdxCh, hc] at h
      simp [← h]
    · simp only [findIdxCh, if_neg hc, Option.map_eq_some'] at h
      obtain ⟨j', hj', hj⟩ := h
      have := ih hj'
      simp only [List.length_cons]
      omega

theorem findIdxCh_getD {l : List Nat} {x : Nat} {j : Nat}
    (h : findIdxCh l x = some j) : l.getD j 0 = x := by
  induction l generalizing j with
  | nil => simp [findIdxCh] at h
  | cons c rest ih =>
    by_cases hc : c = x
    · simp [findIdxCh, hc] at h
      simp [← h, hc]
    · simp only [findIdxCh, if_neg hc, Option.map_eq_some'] at h
      obtain ⟨j', hj', hj⟩ := h
      subst hj
      simpa using ih hj'

theorem findIdxCh_of_mem {l : List Nat} {x : Nat} (h : x ∈ l) :
    ∃ j, findIdxCh l x = some j := by
  rcases he : findIdxCh l x with _ | j
  · exact absurd ((findIdxCh_eq_none_iff l x).mp he) (by simpa using h)
  · exact ⟨j, rfl⟩

theorem getD_mem {α : Type} {l : List α} {j : Nat} (hj : j < l.length) (d : α) :
    l.getD j d ∈ l := by
  rw [List.getD_eq_getElem l d hj]
  exact List.getElem_mem hj

theorem findIdxCh_getD_of_nodup {l : List Nat} (hnd : l.Nodup) {j : Nat}
    (hj : j < l.length) : findIdxCh l (l.getD j 0) = some j := by
  induction l generalizing j with
  | nil => simp at hj
  | cons c rest ih =>
    rw [List.nodup_cons] at hnd
    rcases j with _ | j'
    · simp [findIdxCh]
    · have hj' : j' < rest.length := by simpa using hj
      have hget : (c :: rest).getD (j' + 1) 0 = rest.getD j' 0 := rfl
      rw [hget]
      have hmem : rest.getD j' 0 ∈ rest := getD_mem hj' 0
      have hne : ¬ c = rest.getD j' 0 := fun he => hnd.1 (he ▸ hmem)
      simp only [findIdxCh, if_neg hne, ih hnd.2 hj']
      rfl

/-- Python `set(row) == first_set`: the two lists carry the same character
set. -/
def sameSetB (a b : List Nat) : Bool :=
  a.all (fun c => decide (c ∈ b)) && b.all (fun c => decide (c ∈ a))

/-- `vigenere.read_table_from_file` (minus the path-existence check): keep
non-blank lines, then validate, in the source's order: non-empty, all rows
of the first row's length, squareness, first row within visible ASCII
(32..126), every later row carrying the first row's character set, and a
duplicate-free first row. -/
def readTableFromFile (rawLines : List (List Nat)) : Except VigError (List (List Nat)) :=
  let lines := rawLines.filter nonBlankLine
  if lines.isEmpty then .error .emptyTable
  else if lines.any (fun l => decide (l.length ≠ (lines.headD []).length)) then
    .error .notSquareRows
  else if lines.length ≠ (lines.headD []).length then .error .notSquareNM
  else if (lines.headD []).any (fun c => !(32 ≤ c && c ≤ 126)) then .error .nonVisible
  else if (lines.drop 1).any (fun row => !(sameSetB row (lines.headD []))) then
    .error .rowSetMismatch
  else if (lines.headD []).dedup.length ≠ (lines.headD []).length then .error .dupFirstRow
  else .ok lines

/-- `vigenere.read_key_from_file` with an explicit allowed charset (the
callers always pass the table's charset): keep exactly the characters
present in `allowed`, fail if nothing remains. -/
def readKeyFromFile (content : List Nat) (allowed : List Nat) : Except VigError (List Nat) :=
  let key := content.filter (fun c => decide (c ∈ allowed))
  if key.isEmpty then .error .emptyKey else .ok key

/-- `vigenere.encrypt_char`: table cell at (index of key char, index of
plaintext char); unresolvable characters pass through unchanged. -/
def encryptChar (ch keyCh : Nat) (table : List (List Nat)) (charset : List Nat) : Nat :=
  match findIdxCh charset keyCh, findIdxCh charset ch with
  | some row, some col => (table.getD row []).getD col 0
  | _, _ => ch

/-- `vigenere.decrypt_char`: find the ciphertext char inside the key char's
row, answer with the charset character at that column; unresolvable
characters pass through unchanged. -/
def decryptChar (ch keyCh : Nat) (table : List (List Nat)) (charset : List Nat) : Nat :=
  match findIdxCh charset keyCh with
  | none => ch
  | some row =>
    match findIdxCh (table.getD row []) ch with
    | none => ch
    | some col => charset.getD col 0

/-- The normalization step of `vigenere.process_text`: uppercase-and-filter
for an all-uppercase charset, plain filtering otherwise. -/
def vigNormalize (charset : List Nat) (text : List Nat) : List Nat :=
  if charset.all (fun c => 65 ≤ c && c ≤ 90) then
    (text.map pyUpper).filter (fun c => decide (c ∈ charset))
  else text.filter (fun c => decide (c ∈ charset))

/-- The per-character loop of `vigenere.process_text`; `i` is the running
key index (`key[i % len(key)]`; the source would divide by zero on an empty
key, the loaders guarantee a non-empty key). -/
def processCharsLoop (key : List Nat) (table : List (List Nat)) (charset : List Nat)
    (mode : String) : List Nat → Nat → List Nat
  | [], _ => []
  | ch :: rest, i =>
      (if mode = "encrypt" then encryptChar ch (key.getD (i % key.length) 0) table charset
       else decryptChar ch (key.getD (i % key.length) 0) table charset)
        :: processCharsLoop key table charset mode rest (i + 1)

/-- `vigenere.process_text`: charset is row 0 of the table (the validated
tables are non-empty), the input is normalized, then transformed
character-by-character against the cycled key. -/
def processText (text key : List Nat) (table : List (List Nat)) (mode : String) : List Nat :=
  processCharsLoop key table (table.headD []) mode
    (vigNormalize (table.headD []) text) 0

/-- The invariant `read_table_from_file` establishes: non-empty square
table over visible ASCII, all rows sharing row 0's duplicate-free
character set. -/
def ValidVigTable (table : List (List Nat)) : Prop :=
  table ≠ [] ∧
  (∀ r ∈ table, r.length = table.length) ∧
  (∀ c ∈ table.headD [], 32 ≤ c ∧ c ≤ 126) ∧
  (∀ r ∈ table, (∀ c ∈ r, c ∈ table.headD []) ∧ (∀ c ∈ table.headD [], c ∈ r)) ∧
  (table.headD []).Nodup

instance (table : List (List Nat)) : Decidable (ValidVigTable table) := by
  unfold ValidVigTable
  infer_instance

theorem headD_mem {α : Type} {l : List α} (h : l ≠ []) (d : α) : l.headD d ∈ l := by
  cases l with
  | nil => exact absurd rfl h
  | cons a t => simp

theorem row_nodup_of_valid {table : List (List Nat)} (h : ValidVigTable table)
    {r : List Nat} (hr : r ∈ table) : r.Nodup := by
  obtain ⟨hne, hlen, _, hsets, hnd⟩ := h
  have h1 : (table.headD []) ⊆ r := fun c hc => (hsets r hr).2 c hc
  have hsub : (table.headD []).Subperm r := List.subperm_of_subset hnd h1
  have hlenr : r.length = table.length := hlen r hr
  have hlenh : (table.headD []).length = table.length := hlen _ (headD_mem hne [])
  have hperm : (table.headD []).Perm r := hsub.perm_of_length_le (by omega)
  exact hperm.nodup hnd

theorem pyUpper_of_upper {c : Nat} (h : 65 ≤ c ∧ c ≤ 90) : pyUpper c = c := by
  unfold pyUpper
  have hc : ¬ (97 ≤ c ∧ c ≤ 122) := by omega
  rw [if_neg hc]

theorem pyUpper_idem (c : Nat) : pyUpper (pyUpper c) = pyUpper c := by
  by_cases h : 97 ≤ c ∧ c ≤ 122
  · have h1 : pyUpper c = c - 32 := by
      unfold pyUpper
      rw [if_pos h]
    rw [h1]
    have h2 : ¬ (97 ≤ c - 32 ∧ c - 32 ≤ 122) := by omega
    unfold pyUpper
    rw [if_neg h2]
  · have h1 : pyUpper c = c := by
      unfold pyUpper
      rw [if_neg h]
    rw [h1, h1]

theorem vigNormalize_mem {charset text : List Nat} {c : Nat}
    (h : c ∈ vigNormalize charset text) : c ∈ charset := by
  unfold vigNormalize at h
  split_ifs at h <;> simpa using (List.mem_filter.mp h).2

theorem vigNormalize_of_all_mem {charset l : List Nat}
    (hl : ∀ c ∈ l, c ∈ charset) : vigNormalize charset l = l := by
  unfold vigNormalize
  split_ifs with hc
  · have hup : l.map pyUpper = l := by
      have : ∀ c ∈ l, pyUpper c = c := by
        intro c hcl
        have := List.all_eq_true.mp hc c (hl c hcl)
        exact pyUpper_of_upper (by simpa using this)
      induction l with
      | nil => rfl
      | cons a t ih =>
        simp only [List.map_cons, this a (List.mem_cons_self a t),
          ih (fun c hcl => hl c (List.mem_cons_of_mem a hcl))
             (fun c hcl => this c (List.mem_cons_of_mem a hcl))]
    rw [hup]
    rw [List.filter_eq_self]
    intro c hcl
    simpa using hl c hcl
  · rw [List.filter_eq_self]
    intro c hcl
    simpa using hl c hcl

theorem encryptChar_mem {table : List (List Nat)} (h : ValidVigTable table)
    {ch : Nat} (keyCh : Nat) (hch : ch ∈ table.headD []) :
    encryptChar ch keyCh table (table.headD []) ∈ table.headD [] := by
  obtain ⟨hne, hlen, _, hsets, hnd⟩ := h
  by_cases hk : keyCh ∈ table.headD []
  · obtain ⟨row, hrow⟩ := findIdxCh_of_mem hk
    obtain ⟨col, hcol⟩ := findIdxCh_of_mem hch
    have hlenh : (table.headD []).length = table.length := hlen _ (headD_mem hne [])
    have hrowlt : row < table.length := by
      have := findIdxCh_lt_length hrow
      omega
    have hrmem : table.getD row [] ∈ table := getD_mem hrowlt []
    have hcollt : col < (table.getD row []).length := by
      have := findIdxCh_lt_length hcol
      have := hlen _ hrmem
      omega
    have hcell : (table.getD row []).getD col 0 ∈ table.getD row [] := getD_mem hcollt 0
    unfold encryptChar
    rw [hrow, hcol]
    exact (hsets _ hrmem).1 _ hcell
  · have hnone : findIdxCh (table.headD []) keyCh = none :=
      (findIdxCh_eq_none_iff _ _).mpr hk
    unfold encryptChar
    rw [hnone]
    exact hch

theorem decryptChar_encryptChar {table : List (List Nat)} (h : ValidVigTable table)
    {ch : Nat} (keyCh : Nat) (hch : ch ∈ table.headD []) :
    decryptChar (encryptChar ch keyCh table (table.headD [])) keyCh table
      (table.headD []) = ch := by
  obtain ⟨hne, hlen, hvis, hsets, hnd⟩ := h
  by_cases hk : keyCh ∈ table.headD []
  · obtain ⟨row, hrow⟩ := findIdxCh_of_mem hk
    obtain ⟨col, hcol⟩ := findIdxCh_of_mem hch
    have hlenh : (table.headD []).length = table.length := hlen _ (headD_mem hne [])
    have hrowlt : row < table.length := by
      have := findIdxCh_lt_length hrow
      omega
    have hrmem : table.getD row [] ∈ table := getD_mem hrowlt []
    have hcollt : col < (table.getD row []).length := by
      have := findIdxCh_lt_length hcol
      have := hlen _ hrmem
      omega
    have hrnd : (table.getD row []).Nodup :=
      row_nodup_of_valid ⟨hne, hlen, hvis, hsets, hnd⟩ hrmem
    have henc : encryptChar ch keyCh table (table.headD [])
        = (table.getD row []).getD col 0 := by
      unfold encryptChar
      rw [hrow, hcol]
    rw [henc]
    unfold decryptChar
    simp only [hrow, findIdxCh_getD_of_nodup hrnd hcollt]
    exact findIdxCh_getD hcol
  · have hnone : findIdxCh (table.headD []) keyCh = none :=
      (findIdxCh_eq_none_iff _ _).mpr hk
    unfold encryptChar decryptChar
    rw [hnone]

theorem processCharsLoop_encrypt_cons (key : List Nat) (table : List (List Nat))
    (charset : List Nat) (ch : Nat) (rest : List Nat) (i : Nat) :
    processCharsLoop key table charset "encrypt" (ch :: rest) i
      = encryptChar ch (key.getD (i % key.length) 0) table charset
        :: processCharsLoop key table charset "encrypt" rest (i + 1) := rfl

theorem processCharsLoop_decrypt_cons (key : List Nat) (table : List (List Nat))
    (charset : List Nat) (ch : Nat) (rest : List Nat) (i : Nat) :
    processCharsLoop key table charset "decrypt" (ch :: rest) i
      = decryptChar ch (key.getD (i % key.length) 0) table charset
        :: processCharsLoop key table charset "decrypt" rest (i + 1) := rfl

theorem processCharsLoop_encrypt_mem {table : List (List Nat)} (h : ValidVigTable table)
    (key : List Nat) (t : List Nat) (i : Nat) (ht : ∀ c ∈ t, c ∈ table.headD []) :
    ∀ c ∈ processCharsLoop key table (table.headD []) "encrypt" t i,
      c ∈ table.headD [] := by
  induction t generalizing i with
  | nil => intro c hc; simp [processCharsLoop] at hc
  | cons ch rest ih =>
    intro c hc
    rw [processCharsLoop_encrypt_cons] at hc
    rcases List.mem_cons.mp hc with hc | hc
    · subst hc
      exact encryptChar_mem h _ (ht ch (List.mem_cons_self ch rest))
    · exact ih (i + 1) (fun c hcl => ht c (List.mem_cons_of_mem ch hcl)) c hc

theorem processCharsLoop_roundtrip {table : List (List Nat)} (h : ValidVigTable table)
    (key : List Nat) (t : List Nat) (i : Nat) (ht : ∀ c ∈ t, c ∈ table.headD []) :
    processCharsLoop key table (table.headD []) "decrypt"
      (processCharsLoop key table (table.headD []) "encrypt" t i) i = t := by
  induction t generalizing i with
  | nil => rfl
  | cons ch rest ih =>
    rw [processCharsLoop_encrypt_cons, processCharsLoop_decrypt_cons]
    rw [decryptChar_encryptChar h _ (ht ch (List.mem_cons_self ch rest))]
    rw [ih (i + 1) (fun c hcl => ht c (List.mem_cons_of_mem ch hcl))]

/-- C2: for every valid table and non-empty key drawn from its charset,
process_text in decrypt mode inverts process_text in encrypt mode, returning
exactly the charset-filtered (normalized) text. -/
theorem c2_vigenere_roundtrip (table : List (List Nat)) (key text : List Nat)
    (hvalid : ValidVigTable table) (hkey : key ≠ [])
    (hkeysub : ∀ c ∈ key, c ∈ table.headD []) :
    processText (processText text key table "encrypt") key table "decrypt"
      = vigNormalize (table.headD []) text := by
  unfold processText
  have hmemn : ∀ c ∈ vigNormalize (table.headD []) text, c ∈ table.headD [] :=
    fun c hc => vigNormalize_mem hc
  have hencmem :
      ∀ c ∈ processCharsLoop key table (table.headD []) "encrypt"
        (vigNormalize (table.headD []) text) 0, c ∈ table.headD [] :=
    processCharsLoop_encrypt_mem hvalid key _ 0 hmemn
  rw [vigNormalize_of_all_mem hencmem]
  exact processCharsLoop_roundtrip hvalid key _ 0 hmemn

theorem c2_vigenere_roundtrip_witness :
    ValidVigTable [[65, 66, 67], [66, 67, 65], [67, 65, 66]] ∧
    ([66] : List Nat) ≠ [] ∧
    processText (processText [99, 65, 32, 66] [66]
        [[65, 66, 67], [66, 67, 65], [67, 65, 66]] "encrypt") [66]
        [[65, 66, 67], [66, 67, 65], [67, 65, 66]] "decrypt"
      = vigNormalize [65, 66, 67] [99, 65, 32, 66] :=
  ⟨by decide, by decide,
    c2_vigenere_roundtrip [[65, 66, 67], [66, 67, 65], [67, 65, 66]] [66]
      [99, 65, 32, 66] (by decide) (by decide) (by decide)⟩

theorem dedup_length_iff {l : List Nat} : l.dedup.length = l.length ↔ l.Nodup := by
  constructor
  · intro h
    rw [← List.dedup_eq_self]
    exact (List.dedup_sublist l).eq_of_length h
  · intro h
    rw [List.dedup_eq_self.mpr h]

theorem mem_headD_or_drop {α : Type} {l : List α} (h : l ≠ []) (d : α) {r : α} :
    r ∈ l ↔ r = l.headD d ∨ r ∈ l.drop 1 := by
  cases l with
  | nil => exact absurd rfl h
  | cons a t => simp

theorem sameSetB_eq_true_iff {a b : List Nat} :
    sameSetB a b = true ↔ ((∀ c ∈ a, c ∈ b) ∧ (∀ c ∈ b, c ∈ a)) := by
  unfold sameSetB
  simp [List.all_eq_true]

/-- C4 counterexample: a 3×3 table over the strict charset subset {A, B, C}
(codes 65, 66, 67) is accepted by read_table_from_file, although its row 0
is neither the full visible-ASCII range nor the classic A–Z range. -/
theorem c4_subset_table_counterexample :
    readTableFromFile [[65, 66, 67], [66, 67, 65], [67, 65, 66]]
      = .ok [[65, 66, 67], [66, 67, 65], [67, 65, 66]] := rfl

/-- C4 (amended): the table loader accepts exactly the non-empty square
tables whose rows all carry row 0's character set, with row 0 duplicate-free
and drawn from visible ASCII (codes 32..126) — any such charset is accepted,
not only the full visible-ASCII range or the classic A–Z range. -/
theorem c4_table_acceptance_amended (rawLines : List (List Nat)) :
    (∃ t, readTableFromFile rawLines = .ok t) ↔
      ValidVigTable (rawLines.filter nonBlankLine) := by
  constructor
  · rintro ⟨t, ht⟩
    simp only [readTableFromFile] at ht
    split_ifs at ht with h1 h2 h3 h4 h5 h6 <;> try simp at ht
    have hne : rawLines.filter nonBlankLine ≠ [] := by
      simpa [List.isEmpty_iff] using h1
    have hlens : ∀ r ∈ rawLines.filter nonBlankLine,
        r.length = ((rawLines.filter nonBlankLine).headD []).length := by
      intro r hr
      by_contra hc
      exact h2 (List.any_eq_true.mpr ⟨r, hr, by simpa using hc⟩)
    have hsq : (rawLines.filter nonBlankLine).length
        = ((rawLines.filter nonBlankLine).headD []).length := by
      by_contra hc
      exact h3 hc
    have hvis : ∀ c ∈ (rawLines.filter nonBlankLine).headD [], 32 ≤ c ∧ c ≤ 126 := by
      intro c hc
      by_contra hcc
      refine h4 (List.any_eq_true.mpr ⟨c, hc, ?_⟩)
      simp only [Bool.not_eq_true']
      rw [Bool.and_eq_false_iff]
      by_cases hge : 32 ≤ c
      · right
        simp only [decide_eq_false_iff_not]
        omega
      · left
        simp only [decide_eq_false_iff_not]
        omega
    have hsets : ∀ r ∈ (rawLines.filter nonBlankLine).drop 1,
        sameSetB r ((rawLines.filter nonBlankLine).headD []) = true := by
      intro r hr
      by_contra hc
      exact h5 (List.any_eq_true.mpr ⟨r, hr, by simpa using hc⟩)
    have hnd : ((rawLines.filter nonBlankLine).headD []).Nodup := by
      apply dedup_length_iff.mp
      by_contra hc
      exact h6 hc
    refine ⟨hne, ?_, hvis, ?_, hnd⟩
    · intro r hr
      rw [hlens r hr, hsq]
    · intro r hr
      rcases (mem_headD_or_drop hne []).mp hr with hh | hh
      · subst hh
        exact ⟨fun c hc => hc, fun c hc => hc⟩
      · exact sameSetB_eq_true_iff.mp (hsets r hh)
  · intro hv
    obtain ⟨hne, hlen, hvis, hsets, hnd⟩ := hv
    have h1 : ¬ ((rawLines.filter nonBlankLine).isEmpty = true) := by
      simpa [List.isEmpty_iff] using hne
    have hsq : ((rawLines.filter nonBlankLine).headD []).length
        = (rawLines.filter nonBlankLine).length :=
      hlen _ (headD_mem hne [])
    have h2 : ¬ ((rawLines.filter nonBlankLine).any
        (fun l => decide (l.length ≠ ((rawLines.filter nonBlankLine).headD []).length))
          = true) := by
      intro hc
      obtain ⟨r, hr, hrr⟩ := List.any_eq_true.mp hc
      have : r.length = (rawLines.filter nonBlankLine).length := hlen r hr
      simp only [decide_eq_true_eq] at hrr
      omega
    have h3 : ¬ ((rawLines.filter nonBlankLine).length
        ≠ ((rawLines.filter nonBlankLine).headD []).length) := by omega
    have h4 : ¬ (((rawLines.filter nonBlankLine).headD []).any
        (fun c => !(32 ≤ c && c ≤ 126)) = true) := by
      intro hc
      obtain ⟨c, hcm, hcc⟩ := List.any_eq_true.mp hc
      have := hvis c hcm
      simp only [Bool.not_eq_true', Bool.and_eq_false_iff, decide_eq_false_iff_not] at hcc
      omega
    have h5 : ¬ (((rawLines.filter nonBlankLine).drop 1).any
        (fun row => !(sameSetB row ((rawLines.filter nonBlankLine).headD []))) = true) := by
      intro hc
      obtain ⟨r, hr, hrr⟩ := List.any_eq_true.mp hc
      have hrm : r ∈ rawLines.filter nonBlankLine :=
        (mem_headD_or_drop hne []).mpr (Or.inr hr)
      have := sameSetB_eq_true_iff.mpr (hsets r hrm)
      simp only [Bool.not_eq_true'] at hrr
      rw [this] at hrr
      exact absurd hrr (by decide)
    have h6 : ¬ (((rawLines.filter nonBlankLine).headD []).dedup.length
        ≠ ((rawLines.filter nonBlankLine).headD []).length) :=
      fun hc => hc (dedup_length_iff.mpr hnd)
    refine ⟨rawLines.filter nonBlankLine, ?_⟩
    simp only [readTableFromFile]
    rw [if_neg h1, if_neg h2, if_neg h3, if_neg h4, if_neg h5, if_neg h6]

/-- C5 counterexample: with the classic A–Z charset, a key file containing
only the lowercase letter k (code 107) yields the empty-key error — the
lowercase key letter is dropped by the loader, not used as uppercase K
(which would have produced the key [75]). -/
theorem c5_lowercase_key_counterexample :
    readKeyFromFile [107] (List.range' 65 26) = .error .emptyKey ∧
    (Except.error VigError.emptyKey : Except VigError (List Nat)) ≠ .ok [75] :=
  ⟨rfl, by simp⟩

/-- C5 (amended): in classic mode the input text is uppercased before the
table lookup (lowercase input letters are used as their uppercase
counterparts), but the running key is not uppercased: the key loader keeps
exactly the file's characters that already belong to the charset, so
lowercase key letters are dropped rather than mapped to uppercase. -/
theorem c5_classic_case_handling_amended (table : List (List Nat))
    (text key content allowed k : List Nat) (mode : String)
    (hclassic : (table.headD []).all (fun c => 65 ≤ c && c ≤ 90) = true)
    (hk : readKeyFromFile content allowed = .ok k) :
    processText text key table mode = processText (text.map pyUpper) key table mode ∧
    k.Sublist content ∧ (∀ c ∈ k, c ∈ allowed) := by
  have hkeq : content.filter (fun c => decide (c ∈ allowed)) = k := by
    simp only [readKeyFromFile] at hk
    split_ifs at hk with h
    simpa using hk
  refine ⟨?_, ?_, ?_⟩
  · unfold processText
    congr 1
    unfold vigNormalize
    rw [if_pos hclassic, if_pos hclassic, List.map_map]
    congr 1
    refine List.map_congr_left ?_
    intro a _
    exact (pyUpper_idem a).symm
  · rw [← hkeq]
    exact List.filter_sublist content
  · intro c hc
    rw [← hkeq] at hc
    simpa using (List.mem_filter.mp hc).2

theorem c5_classic_case_handling_amended_witness :
    processText [97] [66] [[66, 65], [65, 66]] "encrypt"
      = processText ([97].map pyUpper) [66] [[66, 65], [65, 66]] "encrypt" ∧
    ([66] : List Nat).Sublist [107, 66] ∧ (∀ c ∈ ([66] : List Nat), c ∈ [65, 66]) :=
  c5_classic_case_handling_amended [[66, 65], [65, 66]] [97] [66] [107, 66] [65, 66] [66]
    "encrypt" (by decide) rfl

/-- The J-to-I merge (`.replace("J", "I")` on a single character). -/
def mapJtoI (c : Nat) : Nat := if c = 74 then 73 else c

/-- `search_letter`'s classic-board test: 25 cells, all uppercase A–Z. -/
def isClassicBoard (board : List (List Nat)) : Bool :=
  board.flatten.length == 25 && board.flatten.all (fun c => 65 ≤ c && c ≤ 90)

/-- Row-major scan of `playfair.search_letter`, carrying the current row
index; the first matching cell wins. -/
def searchLetterAux (letter : Nat) : List (List Nat) → Nat → Option (Nat × Nat)
  | [], _ => none
  | row :: rest, i =>
    match findIdxCh row letter with
    | some j => some (i, j)
    | none => searchLetterAux letter rest (i + 1)

/-- `playfair.search_letter`: on classic boards the probe character is
uppercased and J is merged into I first; extended boards are searched
exactly. -/
def searchLetter (board : List (List Nat)) (letter : Nat) : Option (Nat × Nat) :=
  searchLetterAux
    (if isClassicBoard board then mapJtoI (pyUpper letter) else letter) board 0

/-- Python `%` on integers with a positive modulus (`Int.emod` has the
divisor's sign, matching Python's semantics), brought back to `Nat`. -/
def pyMod (a : Int) (n : Nat) : Nat := (a % (n : Int)).toNat

/-- Cell of the board at row `r`, column `c` (`board[r][c]`). -/
def cellAt (board : List (List Nat)) (r c : Nat) : Nat := (board.getD r []).getD c 0

/-- `playfair.process_pair`: locate both characters (pass the pair through
unchanged if either is missing), then apply the row / column / rectangle
rule, wrapping indices with Python modulo arithmetic. -/
def processPair (board : List (List Nat)) (a b : Nat) (mode : String) : List Nat :=
  match searchLetter board a, searchLetter board b with
  | some pa, some pb =>
    if pa.1 = pb.1 then
      if mode = "encrypt" then
        [cellAt board pa.1 (pyMod ((pa.2 : Int) + 1) (board.headD []).length),
         cellAt board pb.1 (pyMod ((pb.2 : Int) + 1) (board.headD []).length)]
      else
        [cellAt board pa.1 (pyMod ((pa.2 : Int) - 1) (board.headD []).length),
         cellAt board pb.1 (pyMod ((pb.2 : Int) - 1) (board.headD []).length)]
    else if pa.2 = pb.2 then
      if mode = "encrypt" then
        [cellAt board (pyMod ((pa.1 : Int) + 1) board.length) pa.2,
         cellAt board (pyMod ((pb.1 : Int) + 1) board.length) pb.2]
      else
        [cellAt board (pyMod ((pa.1 : Int) - 1) board.length) pa.2,
         cellAt board (pyMod ((pb.1 : Int) - 1) board.length) pb.2]
    else [cellAt board pa.1 pb.2, cellAt board pb.1 pa.2]
  | _, _ => [a, b]

/-- Error raised by `read_board_from_file` when an extended-branch board has
no usable characters. -/
inductive BoardError
  | emptyBoard
deriving DecidableEq

/-- First-seen-wins character collection of `read_board_from_file`. -/
def insertSeen (seen : List Nat) (c : Nat) : List Nat :=
  if c ∈ seen then seen else seen ++ [c]

/-- All characters of the kept lines, first occurrence first. -/
def collectSeen (lines : List (List Nat)) : List Nat :=
  lines.flatten.foldl insertSeen []

/-- `lstrip("﻿")` applied to the first kept line. -/
def stripBOM (lines : List (List Nat)) : List (List Nat) :=
  match lines with
  | [] => []
  | first :: rest => first.dropWhile (fun c => c == 65279) :: rest

/-- ASCII letter test (`"A" <= c <= "Z" or "a" <= c <= "z"`). -/
def isAsciiLetter (c : Nat) : Bool := (65 ≤ c && c ≤ 90) || (97 ≤ c && c ≤ 122)

/-- The residual classic alphabet "ABCDEFGHIKLMNOPQRSTUVWXYZ" (A–Z without
J). -/
def classicAlphabet : List Nat :=
  [65, 66, 67, 68, 69, 70, 71, 72, 73, 75, 76, 77, 78, 79, 80,
   81, 82, 83, 84, 85, 86, 87, 88, 89, 90]

/-- Classic-branch normalization of the seen characters: uppercase, merge J
into I, keep A–Z, drop duplicates. -/
def buildClassicFlat (seen : List Nat) : List Nat :=
  seen.foldl (fun flat ch =>
    let ch2 := mapJtoI (pyUpper ch)
    if (65 ≤ ch2 ∧ ch2 ≤ 90) ∧ ch2 ∉ flat then flat ++ [ch2] else flat) []

/-- Fill the classic board with the residual alphabet up to 25 cells (the
source appends then breaks once 25 cells are reached; skipping further
letters once the length is 25 yields the same list). -/
def fillAlphabet (flat : List Nat) : List Nat :=
  (classicAlphabet.foldl (fun acc ch =>
    if 25 ≤ acc.length then acc
    else if ch ∈ acc then acc else acc ++ [ch]) flat).take 25

/-- `math.ceil(math.sqrt(m))` on naturals. -/
def ceilSqrt (m : Nat) : Nat :=
  if Nat.sqrt m * Nat.sqrt m = m then Nat.sqrt m else Nat.sqrt m + 1

/-- Extended-branch filler: visible ASCII codes 33..125 (`range(33, 126)`)
not already used, until the target cell count is reached. -/
def fillVisible (flat : List Nat) (target : Nat) : List Nat :=
  (List.range' 33 93).foldl (fun acc code =>
    if target ≤ acc.length then acc
    else if code ∈ acc then acc else acc ++ [code]) flat

/-- The `board = [flat[i:i+n] for i in range(0, count*n, n)]` slicing. -/
def chunkRows (l : List Nat) (n count : Nat) : List (List Nat) :=
  (List.range count).map (fun i => (l.drop (i * n)).take n)

/-- `playfair.read_board_from_file` (minus the path-existence check): keep
non-blank lines, strip a BOM from the first, strip surrounding whitespace,
collect distinct characters in first-seen order.  All-letter input (the
empty input included) builds the classic 5×5 board; otherwise an extended
n×n board is built with n = ceil(sqrt(#distinct)).  The source's
grow-n `while` loop is dead code (after filling, the flat list never
exceeds n*n cells, since n*n ≥ the seen-character count by choice of n), so
it has no counterpart here; the final `flat[:n*n]` truncation is kept. -/
def readBoardFromFile (rawLines : List (List Nat)) : Except BoardError (List (List Nat)) :=
  let lines := (stripBOM (rawLines.filter nonBlankLine)).map pyStrip
  let seen := collectSeen lines
  if seen.all isAsciiLetter then
    .ok (chunkRows (fillAlphabet (buildClassicFlat seen)) 5 5)
  else if seen.isEmpty then .error .emptyBoard
  else
    .ok (chunkRows ((fillVisible seen (ceilSqrt seen.length * ceilSqrt seen.length)).take
      (ceilSqrt seen.length * ceilSqrt seen.length))
      (ceilSqrt seen.length) (ceilSqrt seen.length))

/-- The default classic board produced from input with no usable
characters: the alphabet without J, five letters per row. -/
def defaultClassicBoard : List (List Nat) :=
  [[65, 66, 67, 68, 69], [70, 71, 72, 73, 75], [76, 77, 78, 79, 80],
   [81, 82, 83, 84, 85], [86, 87, 88, 89, 90]]

/-- The normalization step of `playfair.decrypt_text`: classic boards
uppercase and merge J into I before filtering to the board's cells,
extended boards filter only. -/
def playfairNormalizeCipher (board : List (List Nat)) (text : List Nat) : List Nat :=
  if isClassicBoard board then
    (text.map (fun c => mapJtoI (pyUpper c))).filter (fun c => decide (c ∈ board.flatten))
  else text.filter (fun c => decide (c ∈ board.flatten))

/-- The digraph loop of decrypt_text/encrypt_text
(`for i in range(0, len(text), 2)`); an odd-length normalized text makes
the source raise IndexError on `text[i+1]`, modelled as `none`. -/
def processPairsAll (board : List (List Nat)) (mode : String) : List Nat → Option (List Nat)
  | [] => some []
  | _ :: [] => none
  | a :: b :: rest =>
    (processPairsAll board mode rest).map (fun r => processPair board a b mode ++ r)

/-- `playfair.decrypt_text`. -/
def decryptText (board : List (List Nat)) (text : List Nat) : Option (List Nat) :=
  processPairsAll board "decrypt" (playfairNormalizeCipher board text)

/-- `decrypt_file`'s classic test (unlike `search_letter`'s, lowercase
cells also count): 25 cells, all ASCII letters. -/
def isClassicFileBoard (board : List (List Nat)) : Bool :=
  board.flatten.length == 25 &&
    board.flatten.all (fun c => (65 ≤ c && c ≤ 90) || (97 ≤ c && c ≤ 122))

/-- `plain.replace("I", "I/J")`: every I (73) becomes the three-character
sequence I, /, J (73, 47, 74). -/
def replaceIJ (s : List Nat) : List Nat :=
  (s.map (fun c => if c = 73 then [73, 47, 74] else [c])).flatten

/-- `playfair.decrypt_file`: decrypt, then for classic boards write each I
as "I/J"; extended boards are written unchanged. -/
def decryptFileContent (board : List (List Nat)) (text : List Nat) : Option (List Nat) :=
  (decryptText board text).map (fun plain =>
    if isClassicFileBoard board then replaceIJ plain else plain)

/-- C3 counterexample: loading an existing but empty board file does not
fail — it returns the default classic board (the full alphabet without J),
because the all-letters test is vacuously true on no characters and the
classic branch fills the 25 cells from the residual alphabet. -/
theorem c3_empty_board_counterexample :
    readBoardFromFile [] = .ok defaultClassicBoard := rfl

/-- C3 (amended): for every existing board file with no usable characters
(no non-blank line, e.g. an empty or whitespace-only file),
read_board_from_file returns the default classic 5×5 board instead of
raising the empty-table error; that error is unreachable on such inputs. -/
theorem c3_empty_board_default_amended (rawLines : List (List Nat))
    (h : rawLines.filter nonBlankLine = []) :
    readBoardFromFile rawLines = .ok defaultClassicBoard := by
  simp only [readBoardFromFile, h]
  rfl

theorem c3_empty_board_default_amended_witness :
    readBoardFromFile [[32, 9], [32]] = .ok defaultClassicBoard :=
  c3_empty_board_default_amended [[32, 9], [32]] (by decide)

theorem replaceIJ_cons (c : Nat) (t : List Nat) :
    replaceIJ (c :: t) = (if c = 73 then [73, 47, 74] else [c]) ++ replaceIJ t := rfl

theorem replaceIJ_length (l : List Nat) :
    (replaceIJ l).length = l.length + 2 * l.count 73 := by
  induction l with
  | nil => rfl
  | cons c t ih =>
    rw [replaceIJ_cons, List.length_append, ih]
    by_cases hc : c = 73
    · subst hc
      simp [List.count_cons]
      omega
    · simp [List.count_cons, hc]
      omega

/-- C9: for classic boards (25 letter cells) decrypt_file writes the
recovered plaintext with every I expanded to the three characters "I/J",
so whenever the plaintext contains an I the file differs from the
decrypt_text result; extended boards are written unchanged. -/
theorem c9_decrypt_file_ij (board : List (List Nat)) (text plain : List Nat)
    (h : decryptText board text = some plain) :
    (isClassicFileBoard board = true →
      decryptFileContent board text = some (replaceIJ plain) ∧
      (replaceIJ plain).length = plain.length + 2 * plain.count 73 ∧
      (73 ∈ plain → decryptFileContent board text ≠ some plain)) ∧
    (isClassicFileBoard board = false →
      decryptFileContent board text = some plain) := by
  have hfc : decryptFileContent board text
      = some (if isClassicFileBoard board then replaceIJ plain else plain) := by
    unfold decryptFileContent
    rw [h]
    rfl
  constructor
  · intro hcl
    rw [hfc, if_pos hcl]
    refine ⟨rfl, replaceIJ_length plain, ?_⟩
    intro hmem heq
    have hinj : replaceIJ plain = plain := by simpa using heq
    have hlen := replaceIJ_length plain
    rw [hinj] at hlen
    have hpos : 0 < plain.count 73 := List.count_pos_iff.mpr hmem
    omega
  · intro hcl
    rw [hfc, if_neg (by simp [hcl])]

theorem c9_decrypt_file_ij_witness :
    decryptFileContent defaultClassicBoard [75, 70] = some (replaceIJ [73, 75]) ∧
    (replaceIJ [73, 75]).length
      = ([73, 75] : List Nat).length + 2 * ([73, 75] : List Nat).count 73 ∧
    (73 ∈ ([73, 75] : List Nat) →
      decryptFileContent defaultClassicBoard [75, 70] ≠ some [73, 75]) :=
  (c9_decrypt_file_ij defaultClassicBoard [75, 70] [73, 75] rfl).1 rfl

theorem searchLetterAux_found :
    ∀ (board : List (List Nat)), board.flatten.Nodup →
    ∀ (r c i : Nat), r < board.length → c < (board.getD r []).length →
    searchLetterAux ((board.getD r []).getD c 0) board i = some (i + r, c) := by
  intro board
  induction board with
  | nil =>
    intro _ r c i hr _
    simp at hr
  | cons row rest ih =>
    intro hnd r c i hr hc
    have hnd' : (row ++ rest.flatten).Nodup := by
      simpa [List.flatten_cons] using hnd
    rw [List.nodup_append] at hnd'
    obtain ⟨hrow, hrest, hdisj⟩ := hnd'
    rcases r with _ | r'
    · have hgd : (row :: rest).getD 0 [] = row := rfl
      rw [hgd] at hc ⊢
      unfold searchLetterAux
      rw [findIdxCh_getD_of_nodup hrow hc]
      simp
    · have hgd : (row :: rest).getD (r' + 1) [] = rest.getD r' [] := rfl
      rw [hgd] at hc ⊢
      have hr' : r' < rest.length := by simpa using hr
      have hx : (rest.getD r' []).getD c 0 ∈ rest.flatten :=
        List.mem_flatten.mpr ⟨rest.getD r' [], getD_mem hr' [], getD_mem hc 0⟩
      have hnotin : (rest.getD r' []).getD c 0 ∉ row := fun hin => hdisj hin hx
      unfold searchLetterAux
      rw [(findIdxCh_eq_none_iff _ _).mpr hnotin]
      show searchLetterAux ((rest.getD r' []).getD c 0) rest (i + 1) = some (i + (r' + 1), c)
      rw [ih hrest r' c (i + 1) hr' hc]
      have harith : i + 1 + r' = i + (r' + 1) := by omega
      rw [harith]

theorem mem_cell_indices {board : List (List Nat)} {a : Nat} (h : a ∈ board.flatten) :
    ∃ r c, r < board.length ∧ c < (board.getD r []).length ∧
      (board.getD r []).getD c 0 = a := by
  obtain ⟨row, hrowmem, ha⟩ := List.mem_flatten.mp h
  obtain ⟨r, hr, hrEq⟩ := List.getElem_of_mem hrowmem
  obtain ⟨c, hc, hcEq⟩ := List.getElem_of_mem ha
  refine ⟨r, c, hr, ?_, ?_⟩
  · rw [List.getD_eq_getElem _ _ hr, hrEq]
    exact hc
  · rw [List.getD_eq_getElem _ _ hr, hrEq, List.getD_eq_getElem _ _ hc, hcEq]

theorem searchLetter_cell {board : List (List Nat)} (hnd : board.flatten.Nodup)
    (hJ : isClassicBoard board = true → (74 : Nat) ∉ board.flatten)
    {r c : Nat} (hr : r < board.length) (hc : c < (board.getD r []).length) :
    searchLetter board ((board.getD r []).getD c 0) = some (r, c) := by
  have hx : (board.getD r []).getD c 0 ∈ board.flatten :=
    List.mem_flatten.mpr ⟨board.getD r [], getD_mem hr [], getD_mem hc 0⟩
  unfold searchLetter
  by_cases hcl : isClassicBoard board = true
  · rw [if_pos hcl]
    have hcl' := hcl
    simp only [isClassicBoard, Bool.and_eq_true, beq_iff_eq, List.all_eq_true] at hcl'
    have hrange : 65 ≤ (board.getD r []).getD c 0 ∧ (board.getD r []).getD c 0 ≤ 90 := by
      have := hcl'.2 _ hx
      simpa using this
    rw [pyUpper_of_upper hrange]
    have hJne : mapJtoI ((board.getD r []).getD c 0) = (board.getD r []).getD c 0 := by
      unfold mapJtoI
      rw [if_neg]
      intro he
      exact hJ hcl (he ▸ hx)
    rw [hJne]
    simpa using searchLetterAux_found board hnd r c 0 hr hc
  · rw [if_neg hcl]
    simpa using searchLetterAux_found board hnd r c 0 hr hc

theorem processPair_found_eq {board : List (List Nat)} {a b : Nat} {ra ca rb cb : Nat}
    (ha : searchLetter board a = some (ra, ca))
    (hb : searchLetter board b = some (rb, cb)) (mode : String) :
    processPair board a b mode =
      if ra = rb then
        (if mode = "encrypt" then
          [cellAt board ra (pyMod ((ca : Int) + 1) (board.headD []).length),
           cellAt board rb (pyMod ((cb : Int) + 1) (board.headD []).length)]
         else
          [cellAt board ra (pyMod ((ca : Int) - 1) (board.headD []).length),
           cellAt board rb (pyMod ((cb : Int) - 1) (board.headD []).length)])
      else if ca = cb then
        (if mode = "encrypt" then
          [cellAt board (pyMod ((ra : Int) + 1) board.length) ca,
           cellAt board (pyMod ((rb : Int) + 1) board.length) cb]
         else
          [cellAt board (pyMod ((ra : Int) - 1) board.length) ca,
           cellAt board (pyMod ((rb : Int) - 1) board.length) cb])
      else [cellAt board ra cb, cellAt board rb ca] := by
  unfold processPair
  rw [ha, hb]

theorem pyMod_lt {a : Int} {n : Nat} (hn : 0 < n) : pyMod a n < n := by
  unfold pyMod
  have hne : (n : Int) ≠ 0 := by exact_mod_cast hn.ne'
  have h1 : 0 ≤ a % (n : Int) := Int.emod_nonneg a hne
  have h2 : a % (n : Int) < (n : Int) := Int.emod_lt_of_pos a (by exact_mod_cast hn)
  omega

theorem pyMod_succ_sub_one {c n : Nat} (hc : c < n) :
    pyMod (((pyMod ((c : Int) + 1) n : Nat) : Int) - 1) n = c := by
  by_cases h1 : c + 1 < n
  · have e1 : pyMod ((c : Int) + 1) n = c + 1 := by
      unfold pyMod
      rw [Int.emod_eq_of_lt (by omega) (by exact_mod_cast h1)]
      omega
    rw [e1]
    unfold pyMod
    have hcast : ((c + 1 : Nat) : Int) - 1 = (c : Int) := by push_cast; ring
    rw [hcast, Int.emod_eq_of_lt (by omega) (by exact_mod_cast hc)]
    omega
  · have hceq : c + 1 = n := by omega
    have e1 : pyMod ((c : Int) + 1) n = 0 := by
      unfold pyMod
      have hcast : (c : Int) + 1 = (n : Int) := by exact_mod_cast hceq
      rw [hcast, Int.emod_self]
      rfl
    rw [e1]
    unfold pyMod
    have hcast : ((0 : Nat) : Int) - 1 = -1 := by norm_num
    rw [hcast]
    have hmod : (-1 : Int) % (n : Int) = (n : Int) - 1 := by
      have h2 : (-1 : Int) = ((n : Int) - 1) + (n : Int) * (-1) := by ring
      rw [h2, Int.add_mul_emod_self_left]
      rw [Int.emod_eq_of_lt (by omega) (by omega)]
    rw [hmod]
    omega

theorem pyMod_succ_inj {x y n : Nat} (hx : x < n) (hy : y < n)
    (h : pyMod ((x : Int) + 1) n = pyMod ((y : Int) + 1) n) : x = y := by
  have h1 := pyMod_succ_sub_one hx
  have h2 := pyMod_succ_sub_one hy
  rw [h] at h1
  rw [h1] at h2
  exact h2

/-- C6 counterexample: the 5×5 board A..Y has pairwise-distinct cells and
both 74 ('J') and 70 ('F') are cells, yet decrypting the encryption of the
digraph (J, F) yields (H, F), not (J, F): search_letter merges J into I on
classic-shaped boards, so J's lookup lands on I's cell. -/
theorem c6_classic_j_counterexample :
    ([[65, 66, 67, 68, 69], [70, 71, 72, 73, 74], [75, 76, 77, 78, 79],
      [80, 81, 82, 83, 84], [85, 86, 87, 88, 89]] : List (List Nat)).flatten.Nodup ∧
    (74 : Nat) ∈ ([[65, 66, 67, 68, 69], [70, 71, 72, 73, 74], [75, 76, 77, 78, 79],
      [80, 81, 82, 83, 84], [85, 86, 87, 88, 89]] : List (List Nat)).flatten ∧
    (70 : Nat) ∈ ([[65, 66, 67, 68, 69], [70, 71, 72, 73, 74], [75, 76, 77, 78, 79],
      [80, 81, 82, 83, 84], [85, 86, 87, 88, 89]] : List (List Nat)).flatten ∧
    processPair [[65, 66, 67, 68, 69], [70, 71, 72, 73, 74], [75, 76, 77, 78, 79],
      [80, 81, 82, 83, 84], [85, 86, 87, 88, 89]] 74 70 "encrypt" = [74, 71] ∧
    processPair [[65, 66, 67, 68, 69], [70, 71, 72, 73, 74], [75, 76, 77, 78, 79],
      [80, 81, 82, 83, 84], [85, 86, 87, 88, 89]] 74 71 "decrypt" = [72, 70] ∧
    ([72, 70] : List Nat) ≠ [74, 70] :=
  ⟨by decide, by decide, by decide, rfl, rfl, by decide⟩

/-- C6 (amended): on every rectangular board with pairwise-distinct cells
that does not contain 'J' (74) when classic-shaped — every board produced
by read_board_from_file satisfies this — process_pair in decrypt mode
inverts process_pair in encrypt mode on digraphs of board cells
(row pairs shift a column right then left modulo the column count, column
pairs shift a row down then up modulo the row count), and on rectangle
pairs (distinct rows and distinct columns) the encrypt and decrypt results
are identical. -/
theorem c6_process_pair_roundtrip_amended
    (board : List (List Nat)) (a b : Nat)
    (hrect : ∀ row ∈ board, row.length = (board.headD []).length)
    (hcols : 0 < (board.headD []).length)
    (hnd : board.flatten.Nodup)
    (hJ : isClassicBoard board = true → (74 : Nat) ∉ board.flatten)
    (ha : a ∈ board.flatten) (hb : b ∈ board.flatten) :
    (∀ x y, processPair board a b "encrypt" = [x, y] →
      processPair board x y "decrypt" = [a, b]) ∧
    (∀ ra ca rb cb, searchLetter board a = some (ra, ca) →
      searchLetter board b = some (rb, cb) → ra ≠ rb → ca ≠ cb →
      processPair board a b "encrypt" = processPair board a b "decrypt") := by
  obtain ⟨ra, ca, hra, hca, hcell_a⟩ := mem_cell_indices ha
  obtain ⟨rb, cb, hrb, hcb, hcell_b⟩ := mem_cell_indices hb
  have hsa : searchLetter board a = some (ra, ca) := by
    rw [← hcell_a]
    exact searchLetter_cell hnd hJ hra hca
  have hsb : searchLetter board b = some (rb, cb) := by
    rw [← hcell_b]
    exact searchLetter_cell hnd hJ hrb hcb
  have hlenrow : ∀ r, r < board.length →
      (board.getD r []).length = (board.headD []).length :=
    fun r hr => hrect _ (getD_mem hr [])
  have hrows : 0 < board.length := by omega
  have hca' : ca < (board.headD []).length := by
    rw [← hlenrow ra hra]
    exact hca
  have hcb' : cb < (board.headD []).length := by
    rw [← hlenrow rb hrb]
    exact hcb
  have hcellsearch : ∀ r c, r < board.length → c < (board.headD []).length →
      searchLetter board (cellAt board r c) = some (r, c) := by
    intro r c hr hc
    have hc2 : c < (board.getD r []).length := by
      rw [hlenrow r hr]
      exact hc
    exact searchLetter_cell hnd hJ hr hc2
  have hija : cellAt board ra ca = a := hcell_a
  have hijb : cellAt board rb cb = b := hcell_b
  by_cases hrr : ra = rb
  · have henc : processPair board a b "encrypt"
        = [cellAt board ra (pyMod ((ca : Int) + 1) (board.headD []).length),
           cellAt board rb (pyMod ((cb : Int) + 1) (board.headD []).length)] := by
      rw [processPair_found_eq hsa hsb "encrypt", if_pos hrr, if_pos rfl]
    have he1 : pyMod ((ca : Int) + 1) (board.headD []).length
        < (board.headD []).length := pyMod_lt hcols
    have he2 : pyMod ((cb : Int) + 1) (board.headD []).length
        < (board.headD []).length := pyMod_lt hcols
    have hs1 := hcellsearch ra _ hra he1
    have hs2 := hcellsearch rb _ hrb he2
    have hdec : processPair board
        (cellAt board ra (pyMod ((ca : Int) + 1) (board.headD []).length))
        (cellAt board rb (pyMod ((cb : Int) + 1) (board.headD []).length)) "decrypt"
        = [a, b] := by
      rw [processPair_found_eq hs1 hs2 "decrypt", if_pos hrr, if_neg (by decide)]
      rw [pyMod_succ_sub_one hca', pyMod_succ_sub_one hcb', hija, hijb]
    constructor
    · intro x y hxy
      rw [henc] at hxy
      simp only [List.cons.injEq, and_true] at hxy
      obtain ⟨hx, hy⟩ := hxy
      subst hx
      subst hy
      exact hdec
    · intro ra' ca' rb' cb' hsa' hsb' hner _
      rw [hsa] at hsa'
      rw [hsb] at hsb'
      have h1 : ra = ra' ∧ ca = ca' := by simpa using hsa'
      have h2 : rb = rb' ∧ cb = cb' := by simpa using hsb'
      exact absurd (h1.1 ▸ h2.1 ▸ hrr) hner
  · by_cases hcc : ca = cb
    · have henc : processPair board a b "encrypt"
          = [cellAt board (pyMod ((ra : Int) + 1) board.length) ca,
             cellAt board (pyMod ((rb : Int) + 1) board.length) cb] := by
        rw [processPair_found_eq hsa hsb "encrypt", if_neg hrr, if_pos hcc, if_pos rfl]
      have hr1 : pyMod ((ra : Int) + 1) board.length < board.length := pyMod_lt hrows
      have hr2 : pyMod ((rb : Int) + 1) board.length < board.length := pyMod_lt hrows
      have hs1 := hcellsearch _ ca hr1 hca'
      have hs2 := hcellsearch _ cb hr2 hcb'
      have hne1 : pyMod ((ra : Int) + 1) board.length
          ≠ pyMod ((rb : Int) + 1) board.length :=
        fun he => hrr (pyMod_succ_inj hra hrb he)
      have hdec : processPair board
          (cellAt board (pyMod ((ra : Int) + 1) board.length) ca)
          (cellAt board (pyMod ((rb : Int) + 1) board.length) cb) "decrypt"
          = [a, b] := by
        rw [processPair_found_eq hs1 hs2 "decrypt", if_neg hne1, if_pos hcc,
          if_neg (by decide)]
        rw [pyMod_succ_sub_one hra, pyMod_succ_sub_one hrb, hija, hijb]
      constructor
      · intro x y hxy
        rw [henc] at hxy
        simp only [List.cons.injEq, and_true] at hxy
        obtain ⟨hx, hy⟩ := hxy
        subst hx
        subst hy
        exact hdec
      · intro ra' ca' rb' cb' hsa' hsb' _ hnec
        rw [hsa] at hsa'
        rw [hsb] at hsb'
        have h1 : ra = ra' ∧ ca = ca' := by simpa using hsa'
        have h2 : rb = rb' ∧ cb = cb' := by simpa using hsb'
        exact absurd (h1.2 ▸ h2.2 ▸ hcc) hnec
    · have henc : processPair board a b "encrypt"
          = [cellAt board ra cb, cellAt board rb ca] := by
        rw [processPair_found_eq hsa hsb "encrypt", if_neg hrr, if_neg hcc]
      have hdec2 : processPair board a b "decrypt"
          = [cellAt board ra cb, cellAt board rb ca] := by
        rw [processPair_found_eq hsa hsb "decrypt", if_neg hrr, if_neg hcc]
      have hs1 := hcellsearch ra cb hra hcb'
      have hs2 := hcellsearch rb ca hrb hca'
      have hdec : processPair board (cellAt board ra cb) (cellAt board rb ca) "decrypt"
          = [a, b] := by
        rw [processPair_found_eq hs1 hs2 "decrypt", if_neg hrr,
          if_neg (fun he => hcc he.symm)]
        rw [hija, hijb]
      constructor
      · intro x y hxy
        rw [henc] at hxy
        simp only [List.cons.injEq, and_true] at hxy
        obtain ⟨hx, hy⟩ := hxy
        subst hx
        subst hy
        exact hdec
      · intro ra' ca' rb' cb' _ _ _ _
        rw [henc, hdec2]

theorem c6_process_pair_roundtrip_amended_witness :
    processPair [[65, 66], [67, 68]] 66 65 "decrypt" = [65, 66] :=
  (c6_process_pair_roundtrip_amended [[65, 66], [67, 68]] 65 66
    (by decide) (by decide) (by decide) (by decide) (by decide) (by decide)).1
    66 65 (by decide)
